import Mathlib

/-
Verification of `snorkel/slicing/utils.py` (Label Materializer and Task Graph
Expander) against its natural-language specification.

The embedding is shallow: Python functions become Lean functions, the mutable
label store becomes an explicit `String → Option (List Int)` map threaded
through the code, and the mutable module-pool objects of the Task Graph
Expander become pool references into an explicit pool store, so that object
identity and aliasing are observable.
-/

namespace SnorkelSlicing

/-! ## Task-name and module-name keys

These mirror the f-strings of the source:
`f"{base_task.name}_slice:{slice_name}_ind"` etc. -/
def indTaskName (base s : String) : String := (base ++ ("_slice:" ++ s)) ++ "_ind"

def predTaskName (base s : String) : String := (base ++ ("_slice:" ++ s)) ++ "_pred"

def indHeadName (base s : String) : String := indTaskName base s ++ "_head"

def predHeadName (base s : String) : String := predTaskName base s ++ "_head"

def predTransformName (base s : String) : String := predTaskName base s ++ "_transform"

/-! ## Label Materializer (`add_slice_labels`, `_add_base_slice`)

The label store (`dataloader.dataset.Y_dict`) is a mapping from task name to a
per-example label array; we embed it as a function to `Option`.  Label values
are integers (the categorical encoding); slice-membership values are the
integers 0/1 coming out of `slice_labels.toarray()`.  A slice matrix is kept
as its list of columns (the code only ever accesses columns
`slice_labels[:, i]` and appends a column with `np.hstack`), together with its
row count (`num_points`). -/
abbrev LabelStore := String → Option (List Int)

def storeSet (Y : LabelStore) (k : String) (v : List Int) : LabelStore :=
  fun q => if q = k then some v else Y q

structure SliceMatrix where
  rows : Nat
  cols : List (List Int)

/-- Normalization of the slice-name list shared by both components: the
source's `if "base" not in slice_names: slice_names = slice_names + ["base"]`
(lines 94-95 and 227-232). -/
def addBase (slice_names : List String) : List String :=
  if "base" ∈ slice_names then slice_names else slice_names ++ ["base"]

def _add_base_slice (slice_labels : SliceMatrix) (slice_names : List String) :
    SliceMatrix × List String :=
  if "base" ∈ slice_names then (slice_labels, slice_names)
  else
    (⟨slice_labels.rows, slice_labels.cols ++ [List.replicate slice_labels.rows 1]⟩,
      slice_names ++ ["base"])

/-- Modelled from the spec: `convert_labels(·, source="onezero", target="categorical")`
from `snorkel.analysis.utils` is not under `src/`.  Spec 4.1 step 2a: "convert
each membership value in \x7b0,1\x7d into a categorical label using a fixed
two-class mapping (0 → category not-in-slice, 1 → category in-slice)"; the
categorical encoding uses 1 for in-slice and 2 for not-in-slice. -/
def convert_labels_onezero_categorical (v : Int) : Int :=
  if v = 1 then 1 else 2

inductive SliceError where
  | shapeMismatch
  | missingBaseLabel
deriving DecidableEq

structure SLResult where
  store : LabelStore
  err : Option SliceError

/-- One iteration of the loop body of `add_slice_labels` (lines 43-55): write
the indicator labels and the predictor labels for one slice column. -/
def writePair (baseName : String) (labels : List Int) (Y : LabelStore)
    (s : String) (col : List Int) : LabelStore :=
  let ind_labels := col.map convert_labels_onezero_categorical
  let pred_labels := List.zipWith (fun m l => m * l) col labels
  storeSet (storeSet Y (indTaskName baseName s) ind_labels)
    (predTaskName baseName s) pred_labels

def writeAll (baseName : String) (labels : List Int) (Y : LabelStore) :
    List (String × List Int) → LabelStore
  | [] => Y
  | (s, col) :: rest => writeAll baseName labels (writePair baseName labels Y s col) rest

def add_slice_labels (base_task_name : String) (Y : LabelStore)
    (slice_labels : SliceMatrix) (slice_names : List String) : SLResult :=
  let p := _add_base_slice slice_labels slice_names
  if p.1.cols.length = p.2.length then
    match Y base_task_name with
    | some labels =>
        ⟨writeAll base_task_name labels Y (p.2.zip p.1.cols), none⟩
    | none => ⟨Y, some SliceError.missingBaseLabel⟩
  else ⟨Y, some SliceError.shapeMismatch⟩

/-! ## Concrete inputs used by the witnesses -/
def demoName : String := "t"

def demoSlice : String := "rare"

def otherKey : String := "other"

def demoY : LabelStore := fun k => if k = demoName then some [1, 2, 1] else none

def demoMatrix : SliceMatrix := ⟨3, [[1, 0, 1]]⟩

def demoBadMatrix : SliceMatrix := ⟨1, [[1], [0]]⟩

/-! ## Task Graph Expander (`convert_to_slice_tasks`)

Modules are opaque parameterized units; identity matters (weight sharing is
"same object", not "equal value"), so every module carries an allocation id
and fresh constructions draw ids from a counter.  The module pool is a
name-to-module dictionary; because the source aliases one pool object across
tasks and mutates it in place, pools live in a pool store indexed by pool
references, and a `Task` holds a pool reference, exactly like the Python
objects hold a pointer. -/
inductive NNModule where
  | linear (id inF outF : Nat)
  | combiner (id : Nat)
  | dataParallel (id : Nat) (inner : NNModule)
deriving DecidableEq

/-- Reading `.in_features`: only a plain linear module exposes it (a
`SliceCombinerModule` or an `nn.DataParallel` wrapper has no such attribute). -/
def NNModule.in_features : NNModule → Option Nat
  | .linear _ a _ => some a
  | _ => none

def NNModule.out_features : NNModule → Option Nat
  | .linear _ _ b => some b
  | _ => none

/-- The `isinstance(head_module, nn.DataParallel)` unwrap of lines 107-108:
one level only. -/
def NNModule.unwrapDataParallel : NNModule → NNModule
  | .dataParallel _ inner => inner
  | m => m

abbrev Pool := List (String × NNModule)

def poolGet (p : Pool) (k : String) : Option NNModule :=
  match p with
  | [] => none
  | (k2, v) :: rest => if k2 = k then some v else poolGet rest k

/-- Python-dict assignment: replace in place if the key exists, else append. -/
def poolSet (p : Pool) (k : String) (v : NNModule) : Pool :=
  match p with
  | [] => [(k, v)]
  | (k2, v2) :: rest => if k2 = k then (k2, v) :: rest else (k2, v2) :: poolSet rest k v

/-- Python `del pool[k]`. -/
def poolDel (p : Pool) (k : String) : Pool :=
  match p with
  | [] => []
  | (k2, v2) :: rest => if k2 = k then poolDel rest k else (k2, v2) :: poolDel rest k

/-- The mutable world of the expander: a store of module pools addressed by
pool references, plus fresh-reference and fresh-module counters. -/
structure GState where
  pools : List (Nat × Pool)
  nextPoolRef : Nat
  nextModuleId : Nat
deriving DecidableEq

def poolsGet (ps : List (Nat × Pool)) (r : Nat) : Pool :=
  match ps with
  | [] => []
  | (r2, p) :: rest => if r2 = r then p else poolsGet rest r

def poolsSet (ps : List (Nat × Pool)) (r : Nat) (p : Pool) : List (Nat × Pool) :=
  match ps with
  | [] => [(r, p)]
  | (r2, p2) :: rest => if r2 = r then (r2, p) :: rest else (r2, p2) :: poolsSet rest r p

def getPool (st : GState) (r : Nat) : Pool := poolsGet st.pools r

def setPool (st : GState) (r : Nat) (p : Pool) : GState :=
  ⟨poolsSet st.pools r p, st.nextPoolRef, st.nextModuleId⟩

/-- Modelled from the spec: `nn.Linear(a, b)` (torch, an external collaborator)
is a fresh "linear transform" module of the given input/output dimensionality;
freshness is embedded as a new allocation id. -/
def allocLinear (st : GState) (a b : Nat) : NNModule × GState :=
  (.linear st.nextModuleId a b, ⟨st.pools, st.nextPoolRef, st.nextModuleId + 1⟩)

/-- Modelled from the spec: `SliceCombinerModule()` from
`snorkel.slicing.modules.slice_combiner` (not under `src/`), an opaque fresh
combiner module. -/
def allocCombiner (st : GState) : NNModule × GState :=
  (.combiner st.nextModuleId, ⟨st.pools, st.nextPoolRef, st.nextModuleId + 1⟩)

/-- Modelled from the spec: `nn.ModuleDict({...})` builds a fresh pool object
holding the given entries; freshness is a new pool reference. -/
def allocPool (st : GState) (p : Pool) : Nat × GState :=
  (st.nextPoolRef, ⟨poolsSet st.pools st.nextPoolRef p, st.nextPoolRef + 1, st.nextModuleId⟩)

/-- Operation: a named node of the task flow.  Inputs are (operation-name,
output-index) references; the body operations' inputs may also mention
external data keys, which we do not need to distinguish. -/
structure Operation where
  name : String
  module_name : String
  inputs : List (String × Nat)
deriving DecidableEq

/-- Modelled from the spec: the `Operation(module_name=..., inputs=...)`
constructor of `snorkel.classification.snorkel_classifier` (not under `src/`)
builds a named node; when no explicit name is passed the node is named after
its module. -/
def mkOperation (module_name : String) (inputs : List (String × Nat)) : Operation :=
  ⟨module_name, module_name, inputs⟩

/-- Modelled from the spec: the scorer configuration is an opaque value
selected per task (a metric list suffices for the structure we verify). -/
structure Scorer where
  metrics : List String
deriving DecidableEq

def f1Scorer : Scorer := ⟨["f1"]⟩

/-- Modelled from the spec: `Task(name, module_pool, task_flow, scorer)` from
`snorkel.classification.snorkel_classifier` (not under `src/`); the module
pool is held by reference. -/
structure Task where
  name : String
  poolRef : Nat
  task_flow : List Operation
  scorer : Scorer
deriving DecidableEq

def dummyTask : Task := ⟨"", 0, [], ⟨[]⟩⟩

/-- Loop of lines 118-147: build one indicator task per slice name, inserting
the fresh binary indicator head into the shared pool as it goes.  Returns the
tasks, their head operations (accumulated into `slice_task_ops`), and the
resulting state. -/
def mkIndTasks (baseName : String) (poolRef : Nat) (bodyFlow : List Operation)
    (headInputs : List (String × Nat)) (neck : Nat) :
    List String → GState → List Task × List Operation × GState
  | [], st => ([], [], st)
  | s :: rest, st =>
      let ind_task_name := indTaskName baseName s
      let ind_head_module_name := indHeadName baseName s
      let alloc := allocLinear st neck 2
      let st2 := setPool alloc.2 poolRef
        (poolSet (getPool alloc.2 poolRef) ind_head_module_name alloc.1)
      let ind_head_op := mkOperation ind_head_module_name headInputs
      let ind_task : Task := ⟨ind_task_name, poolRef, bodyFlow ++ [ind_head_op], f1Scorer⟩
      let r := mkIndTasks baseName poolRef bodyFlow headInputs neck rest st2
      (ind_task :: r.1, ind_head_op :: r.2.1, r.2.2)

/-- Loop of lines 151-185: build one predictor task per slice name.  The head
module is the single `shared_pred_head_module` passed in; each slice gets a
private fresh transform module. -/
def mkPredTasks (baseName : String) (poolRef : Nat) (bodyFlow : List Operation)
    (headInputs : List (String × Nat)) (neck : Nat) (sharedHead : NNModule)
    (baseScorer : Scorer) :
    List String → GState → List Task × List Operation × GState
  | [], st => ([], [], st)
  | s :: rest, st =>
      let pred_task_name := predTaskName baseName s
      let pred_head_module_name := predHeadName baseName s
      let pred_transform_module_name := predTransformName baseName s
      let alloc := allocLinear st neck neck
      let st2 := setPool alloc.2 poolRef
        (poolSet (poolSet (getPool alloc.2 poolRef) pred_transform_module_name alloc.1)
          pred_head_module_name sharedHead)
      let pred_transform_op := mkOperation pred_transform_module_name headInputs
      let pred_head_op := mkOperation pred_head_module_name [(pred_transform_op.name, 0)]
      let pred_task : Task :=
        ⟨pred_task_name, poolRef, bodyFlow ++ [pred_transform_op, pred_head_op], baseScorer⟩
      let r := mkPredTasks baseName poolRef bodyFlow headInputs neck sharedHead
        baseScorer rest st2
      (pred_task :: r.1, pred_transform_op :: pred_head_op :: r.2.1, r.2.2)

/-- Success path of `convert_to_slice_tasks` (lines 113-218), after the head
operation and head module have been resolved: remove the slice-unaware head
from the pool, build the indicator tasks, the shared predictor head and the
predictor tasks, and the master task with its fresh two-entry pool. -/
def convertCore (st : GState) (base_task : Task) (slice_names : List String)
    (head_module_op : Operation) (head_module : NNModule)
    (neck_size base_task_cardinality : Nat) : List Task × GState :=
  let st1 := setPool st base_task.poolRef
    (poolDel (getPool st base_task.poolRef) head_module_op.module_name)
  let body_flow := base_task.task_flow.dropLast
  let ri := mkIndTasks base_task.name base_task.poolRef body_flow
    head_module_op.inputs neck_size slice_names st1
  let ap := allocLinear ri.2.2 neck_size base_task_cardinality
  let rp := mkPredTasks base_task.name base_task.poolRef body_flow
    head_module_op.inputs neck_size ap.1 base_task.scorer slice_names ap.2
  let ac := allocCombiner rp.2.2
  let master_combiner_module_name := base_task.name ++ "_master_combiner"
  let master_head_module_name := base_task.name ++ "_master_head"
  let am := allocPool ac.2
    [(master_combiner_module_name, ac.1), (master_head_module_name, head_module)]
  let master_combiner_op := mkOperation master_combiner_module_name []
  let master_head_op := mkOperation master_head_module_name
    [(master_combiner_op.name, 0)]
  let master_task_flow :=
    body_flow ++ (ri.2.1 ++ rp.2.1) ++ [master_combiner_op, master_head_op]
  let master_task : Task :=
    ⟨base_task.name, am.1, master_task_flow, base_task.scorer⟩
  (ri.1 ++ rp.1 ++ [master_task], am.2)

/-- Lines 58-218 of the source.  Returns `none` where the Python code would
raise: empty task flow (`task_flow[-1]`), head module missing from the pool
(`module_pool[...]`), or a head module without readable
`in_features`/`out_features`. -/
def convert_to_slice_tasks (st : GState) (base_task : Task)
    (slice_names0 : List String) : Option (List Task × GState) :=
  let slice_names := addBase slice_names0
  match base_task.task_flow.getLast? with
  | none => none
  | some head_module_op =>
      match poolGet (getPool st base_task.poolRef) head_module_op.module_name with
      | none => none
      | some head_module_raw =>
          let head_module := head_module_raw.unwrapDataParallel
          match head_module.in_features, head_module.out_features with
          | some neck_size, some base_task_cardinality =>
              some (convertCore st base_task slice_names head_module_op head_module
                neck_size base_task_cardinality)
          | _, _ => none

/-! ### Success-path destructuring -/
def demoSt : GState := ⟨[(0, [("h", .linear 7 8 3)])], 1, 50⟩

def demoTask : Task :=
  ⟨"t", 0, [mkOperation ("body") [], mkOperation ("h") [("body", 0)]], ⟨["accuracy"]⟩⟩

def demoOut : Option (List Task × GState) := convert_to_slice_tasks demoSt demoTask ["rare"]

def demoTasks : List Task := (demoOut.getD ([], demoSt)).1

def demoSt2 : GState := (demoOut.getD ([], demoSt)).2

def demoWSt : GState := ⟨[(0, [("h", .dataParallel 9 (.linear 7 8 3))])], 1, 50⟩

def demoWOut : Option (List Task × GState) := convert_to_slice_tasks demoWSt demoTask ["rare"]

def demoWTasks : List Task := (demoWOut.getD ([], demoWSt)).1

def demoWSt2 : GState := (demoWOut.getD ([], demoWSt)).2

/-! ### Distinctness of the generated keys -/
theorem string_ext_data {a b : String} (h : a.data = b.data) : a = b := by
  cases a; cases b; cases h; rfl

theorem append_ne_of_rev_take (a b x y : String) (n : Nat)
    (hx : n ≤ x.length) (hy : n ≤ y.length)
    (h : x.data.reverse.take n ≠ y.data.reverse.take n) : a ++ x ≠ b ++ y := by
  intro he
  apply h
  have hd : (a ++ x).data = (b ++ y).data := by rw [he]
  rw [String.data_append, String.data_append] at hd
  have hr : x.data.reverse ++ a.data.reverse = y.data.reverse ++ b.data.reverse := by
    rw [← List.reverse_append, ← List.reverse_append, hd]
  have hx' : n ≤ x.data.reverse.length := by rw [List.length_reverse]; exact hx
  have hy' : n ≤ y.data.reverse.length := by rw [List.length_reverse]; exact hy
  have ht := congrArg (List.take n) hr
  rwa [List.take_append_of_le_length hx', List.take_append_of_le_length hy'] at ht

theorem string_append_right_cancel {a b c : String} (h : a ++ c = b ++ c) : a = b := by
  apply string_ext_data
  have hd : a.data ++ c.data = b.data ++ c.data := by
    rw [← String.data_append, ← String.data_append, h]
  exact List.append_cancel_right hd

theorem string_append_left_cancel {a b c : String} (h : a ++ b = a ++ c) : b = c := by
  apply string_ext_data
  have hd : a.data ++ b.data = a.data ++ c.data := by
    rw [← String.data_append, ← String.data_append, h]
  exact List.append_cancel_left hd

theorem ne_append_of_len {a x : String} (hx : x ≠ "") : a ≠ a ++ x := by
  intro he
  have hlen : a.length = a.length + x.length := by
    conv_lhs => rw [he]
    exact String.length_append a x
  have hx0 : x.length = 0 := by omega
  apply hx
  apply string_ext_data
  have hd : x.data.length = 0 := hx0
  exact List.length_eq_zero.mp hd

theorem indTaskName_ne_predTaskName (b b' s t : String) :
    indTaskName b s ≠ predTaskName b' t := by
  apply append_ne_of_rev_take _ _ ("_ind") ("_pred") 2 (by decide) (by decide)
  decide

theorem indTaskName_inj {b s t : String} (h : indTaskName b s = indTaskName b t) : s = t :=
  string_append_left_cancel (string_append_left_cancel (string_append_right_cancel h))

theorem predTaskName_inj {b s t : String} (h : predTaskName b s = predTaskName b t) : s = t :=
  string_append_left_cancel (string_append_left_cancel (string_append_right_cancel h))

theorem base_ne_indTaskName (b s : String) : b ≠ indTaskName b s := by
  intro he
  have hb : b.length = (indTaskName b s).length := congrArg String.length he
  have h7 : ("_slice:" : String).length = 7 := rfl
  have h4 : ("_ind" : String).length = 4 := rfl
  have h2 : (indTaskName b s).length = b.length + (7 + s.length) + 4 := by
    simp [indTaskName, String.length_append, h7, h4]
  omega

theorem base_ne_predTaskName (b s : String) : b ≠ predTaskName b s := by
  intro he
  have hb : b.length = (predTaskName b s).length := congrArg String.length he
  have h7 : ("_slice:" : String).length = 7 := rfl
  have h5 : ("_pred" : String).length = 5 := rfl
  have h2 : (predTaskName b s).length = b.length + (7 + s.length) + 5 := by
    simp [predTaskName, String.length_append, h7, h5]
  omega

theorem append_head_ne_append_transform (a b : String) :
    a ++ "_head" ≠ b ++ "_transform" := by
  apply append_ne_of_rev_take _ _ ("_head") ("_transform") 1 (by decide) (by decide)
  decide

theorem predHeadName_ne_predTransformName (b b' s t : String) :
    predHeadName b s ≠ predTransformName b' t :=
  append_head_ne_append_transform _ _

theorem indHeadName_ne_predTransformName (b b' s t : String) :
    indHeadName b s ≠ predTransformName b' t :=
  append_head_ne_append_transform _ _

theorem indHeadName_ne_predHeadName (b b' s t : String) :
    indHeadName b s ≠ predHeadName b' t := by
  intro he
  exact indTaskName_ne_predTaskName b b' s t (string_append_right_cancel he)

theorem predHeadName_inj {b s t : String} (h : predHeadName b s = predHeadName b t) :
    s = t :=
  predTaskName_inj (string_append_right_cancel h)

/-! ### Store lemmas -/
theorem storeSet_self (Y : LabelStore) (k : String) (v : List Int) :
    storeSet Y k v k = some v := by
  simp [storeSet]

theorem storeSet_ne (Y : LabelStore) (k q : String) (v : List Int) (h : q ≠ k) :
    storeSet Y k v q = Y q := by
  simp [storeSet, h]

theorem writePair_ne (baseName : String) (labels : List Int) (Y : LabelStore)
    (s : String) (col : List Int) (q : String)
    (h1 : q ≠ indTaskName baseName s) (h2 : q ≠ predTaskName baseName s) :
    writePair baseName labels Y s col q = Y q := by
  simp [writePair, storeSet_ne _ _ _ _ h1, storeSet_ne _ _ _ _ h2]

theorem writeAll_ne (baseName : String) (labels : List Int) (Y : LabelStore)
    (pairs : List (String × List Int)) (q : String)
    (h : ∀ p ∈ pairs, q ≠ indTaskName baseName p.1 ∧ q ≠ predTaskName baseName p.1) :
    writeAll baseName labels Y pairs q = Y q := by
  induction pairs generalizing Y with
  | nil => rfl
  | cons p rest ih =>
      obtain ⟨h1, h2⟩ := h p (List.mem_cons_self p rest)
      rw [writeAll, ih _ (fun r hr => h r (List.mem_cons_of_mem p hr))]
      exact writePair_ne baseName labels Y p.1 p.2 q h1 h2

theorem writePair_isSome_mono (baseName : String) (labels : List Int) (Y : LabelStore)
    (s : String) (col : List Int) (q : String) (h : (Y q).isSome) :
    ((writePair baseName labels Y s col) q).isSome := by
  simp only [writePair, storeSet]
  split
  · simp
  · split
    · simp
    · exact h

theorem writePair_ind_isSome (baseName : String) (labels : List Int) (Y : LabelStore)
    (s : String) (col : List Int) :
    ((writePair baseName labels Y s col) (indTaskName baseName s)).isSome := by
  simp only [writePair, storeSet]
  rw [if_neg (indTaskName_ne_predTaskName baseName baseName s s)]
  simp

theorem writePair_pred_isSome (baseName : String) (labels : List Int) (Y : LabelStore)
    (s : String) (col : List Int) :
    ((writePair baseName labels Y s col) (predTaskName baseName s)).isSome := by
  simp only [writePair, storeSet]
  simp

theorem writePair_pred_val (baseName : String) (labels : List Int) (Y : LabelStore)
    (s : String) (col : List Int) :
    writePair baseName labels Y s col (predTaskName baseName s)
      = some (List.zipWith (fun m l => m * l) col labels) := by
  simp only [writePair, storeSet]
  simp

theorem writeAll_isSome_mono (baseName : String) (labels : List Int) (Y : LabelStore)
    (pairs : List (String × List Int)) (q : String)
    (h : (Y q).isSome) : ((writeAll baseName labels Y pairs) q).isSome := by
  induction pairs generalizing Y with
  | nil => exact h
  | cons p rest ih =>
      rw [writeAll]
      exact ih _ (writePair_isSome_mono baseName labels Y p.1 p.2 q h)

theorem writeAll_mem_isSome (baseName : String) (labels : List Int) (Y : LabelStore)
    (pairs : List (String × List Int)) (s : String) (h : s ∈ pairs.map Prod.fst) :
    ((writeAll baseName labels Y pairs) (indTaskName baseName s)).isSome
      ∧ ((writeAll baseName labels Y pairs) (predTaskName baseName s)).isSome := by
  induction pairs generalizing Y with
  | nil => simp at h
  | cons p rest ih =>
      obtain ⟨ps, pc⟩ := p
      rw [List.map_cons] at h
      rw [writeAll]
      rcases List.mem_cons.mp h with hs | hs
      · subst hs
        constructor
        · exact writeAll_isSome_mono _ _ _ _ _ (writePair_ind_isSome _ _ _ _ _)
        · exact writeAll_isSome_mono _ _ _ _ _ (writePair_pred_isSome _ _ _ _ _)
      · exact ih _ hs

theorem writeAll_pred_val (baseName : String) (labels : List Int) (Y : LabelStore)
    (pairs : List (String × List Int)) (s : String) (col : List Int)
    (hmem : (s, col) ∈ pairs) (hnd : (pairs.map Prod.fst).Nodup) :
    writeAll baseName labels Y pairs (predTaskName baseName s)
      = some (List.zipWith (fun m l => m * l) col labels) := by
  induction pairs generalizing Y with
  | nil => simp at hmem
  | cons p rest ih =>
      obtain ⟨ps, pc⟩ := p
      rw [List.map_cons, List.nodup_cons] at hnd
      rw [writeAll]
      rcases List.mem_cons.mp hmem with hs | hs
      · have hp1 : ps = s := congrArg Prod.fst hs.symm
        have hp2 : pc = col := congrArg Prod.snd hs.symm
        subst hp1
        subst hp2
        rw [writeAll_ne]
        · exact writePair_pred_val baseName labels Y ps pc
        · intro r hr
          constructor
          · exact (indTaskName_ne_predTaskName baseName baseName r.1 ps).symm
          · intro hq
            have hrs : ps = r.1 := predTaskName_inj hq
            have hmem2 : r.1 ∈ rest.map Prod.fst := List.mem_map_of_mem Prod.fst hr
            rw [← hrs] at hmem2
            exact hnd.1 hmem2
      · exact ih _ hs hnd.2

theorem _add_base_slice_lengths (m : SliceMatrix) (names : List String) :
    (_add_base_slice m names).1.cols.length
        = m.cols.length + (if "base" ∈ names then 0 else 1)
      ∧ (_add_base_slice m names).2.length
        = names.length + (if "base" ∈ names then 0 else 1) := by
  by_cases hb : "base" ∈ names <;> simp [_add_base_slice, hb]

theorem _add_base_slice_names (m : SliceMatrix) (names : List String) :
    (_add_base_slice m names).2 = addBase names := by
  by_cases hb : "base" ∈ names <;> simp [_add_base_slice, addBase, hb]

theorem add_slice_labels_success (baseName : String) (Y : LabelStore)
    (m : SliceMatrix) (names : List String) (labels : List Int)
    (hY : Y baseName = some labels)
    (hlen : m.cols.length = names.length) :
    add_slice_labels baseName Y m names
      = ⟨writeAll baseName labels Y
            ((_add_base_slice m names).2.zip (_add_base_slice m names).1.cols), none⟩ := by
  have hl := _add_base_slice_lengths m names
  unfold add_slice_labels
  rw [if_pos, hY]
  omega

/-! ## Claims about the Label Materializer -/
/-- Claim C2: after base-slice normalization the slice-name list contains
"base" exactly once (given the spec's input contract that column names are
unique, hence "base" occurs at most once in the input), and its length is the
input column count plus one exactly when "base" was absent; "base" is never
added twice. -/
theorem base_slice_normalization_spec (m : SliceMatrix) (names : List String)
    (hc : names.count ("base") ≤ 1) (hlen : m.cols.length = names.length) :
    (_add_base_slice m names).2.count ("base") = 1
      ∧ (_add_base_slice m names).2.length
          = m.cols.length + (if "base" ∈ names then 0 else 1)
      ∧ (_add_base_slice m names).1.cols.length = (_add_base_slice m names).2.length := by
  have hl := _add_base_slice_lengths m names
  refine ⟨?_, by omega, by omega⟩
  by_cases hb : "base" ∈ names
  · have h1 : 0 < names.count ("base") := List.count_pos_iff.mpr hb
    have h2 : (_add_base_slice m names).2 = names := by simp [_add_base_slice, hb]
    rw [h2]
    omega
  · have h0 : names.count ("base") = 0 := List.count_eq_zero.mpr hb
    have h2 : (_add_base_slice m names).2 = names ++ ["base"] := by
      simp [_add_base_slice, hb]
    rw [h2, List.count_append]
    simp [h0]

/-- Claim C2 witness. -/
theorem base_slice_normalization_spec_witness :
    (_add_base_slice demoMatrix ["rare"]).2.count ("base") = 1
      ∧ (_add_base_slice demoMatrix ["rare"]).2.length
          = demoMatrix.cols.length + (if "base" ∈ ["rare"] then 0 else 1)
      ∧ (_add_base_slice demoMatrix ["rare"]).1.cols.length
          = (_add_base_slice demoMatrix ["rare"]).2.length :=
  base_slice_normalization_spec demoMatrix ["rare"] (by decide) (by decide)

/-- Claim C10: the slice-name normalization of both components builds the
output by concatenation (`slice_names + ["base"]`), returning either the
caller's list itself or a fresh concatenated list; the caller's elements
survive as the unchanged prefix, in order. -/
theorem slice_names_not_mutated (m : SliceMatrix) (names : List String) :
    (addBase names).take names.length = names
      ∧ (_add_base_slice m names).2 = addBase names
      ∧ (addBase names = names ∨ addBase names = names ++ ["base"]) := by
  refine ⟨?_, _add_base_slice_names m names, ?_⟩
  · by_cases hb : "base" ∈ names
    · simp [addBase, hb]
    · simp only [addBase, hb, if_neg]
      exact List.take_left names ["base"]
  · by_cases hb : "base" ∈ names
    · exact Or.inl (by simp [addBase, hb])
    · exact Or.inr (by simp [addBase, hb])

/-- Claim C8: given that the base task's label entry exists, the Label
Materializer raises exactly the shape-mismatch assertion, and it does so if
and only if the normalized column count disagrees with the normalized name
count; on failure the label store is untouched (the check precedes every
write). -/
theorem shape_mismatch_assertion (Y : LabelStore) (m : SliceMatrix)
    (names : List String) (baseName : String) (labels : List Int)
    (hY : Y baseName = some labels) :
    ((add_slice_labels baseName Y m names).err = some SliceError.shapeMismatch
        ↔ (_add_base_slice m names).1.cols.length ≠ (_add_base_slice m names).2.length)
      ∧ ((add_slice_labels baseName Y m names).err ≠ none
          → (add_slice_labels baseName Y m names).store = Y) := by
  unfold add_slice_labels
  by_cases hsh :
      (_add_base_slice m names).1.cols.length = (_add_base_slice m names).2.length
  · rw [if_pos hsh, hY]
    simp [hsh]
  · rw [if_neg hsh]
    simp [hsh]

/-- Claim C8 witness: a run with two slice columns but one slice name trips
the assertion and leaves the store untouched. -/
theorem shape_mismatch_assertion_witness :
    ((add_slice_labels demoName demoY demoBadMatrix ["a"]).err = some SliceError.shapeMismatch
        ↔ (_add_base_slice demoBadMatrix ["a"]).1.cols.length
            ≠ (_add_base_slice demoBadMatrix ["a"]).2.length)
      ∧ ((add_slice_labels demoName demoY demoBadMatrix ["a"]).err ≠ none
          → (add_slice_labels demoName demoY demoBadMatrix ["a"]).store = demoY) :=
  shape_mismatch_assertion demoY demoBadMatrix ["a"] demoName [1, 2, 1] (by decide)

/-- Claim C9: a successful run of the Label Materializer only adds entries
under the `_ind`/`_pred` keys of the normalized slice names: every other key
(quantified as `k`) keeps its old value, the base task's own entry is
undisturbed, and the slice keys are present afterwards. -/
theorem store_frame_only_adds (Y : LabelStore) (m : SliceMatrix) (names : List String)
    (baseName : String) (labels : List Int) (k : String)
    (hY : Y baseName = some labels)
    (hlen : m.cols.length = names.length)
    (hk : ∀ s ∈ (_add_base_slice m names).2,
        k ≠ indTaskName baseName s ∧ k ≠ predTaskName baseName s) :
    (add_slice_labels baseName Y m names).err = none
      ∧ (add_slice_labels baseName Y m names).store k = Y k
      ∧ (add_slice_labels baseName Y m names).store baseName = Y baseName
      ∧ ∀ s ∈ (_add_base_slice m names).2,
          ((add_slice_labels baseName Y m names).store (indTaskName baseName s)).isSome
            ∧ ((add_slice_labels baseName Y m names).store (predTaskName baseName s)).isSome := by
  have hsucc := add_slice_labels_success baseName Y m names labels hY hlen
  rw [hsucc]
  have hle : (_add_base_slice m names).2.length
      ≤ (_add_base_slice m names).1.cols.length := by
    have := _add_base_slice_lengths m names
    omega
  refine ⟨rfl, ?_, ?_, ?_⟩
  · apply writeAll_ne
    intro r hr
    exact hk r.1 (List.of_mem_zip hr).1
  · apply writeAll_ne
    intro r hr
    exact ⟨base_ne_indTaskName baseName r.1, base_ne_predTaskName baseName r.1⟩
  · intro s hs
    have hmem : s ∈ ((_add_base_slice m names).2.zip
        (_add_base_slice m names).1.cols).map Prod.fst := by
      rw [List.map_fst_zip _ _ hle]
      exact hs
    exact writeAll_mem_isSome baseName labels Y _ s hmem

/-- Claim C9 witness. -/
theorem store_frame_only_adds_witness :
    (add_slice_labels demoName demoY demoMatrix ["rare"]).err = none
      ∧ (add_slice_labels demoName demoY demoMatrix ["rare"]).store otherKey = demoY otherKey
      ∧ (add_slice_labels demoName demoY demoMatrix ["rare"]).store demoName = demoY demoName
      ∧ ∀ s ∈ (_add_base_slice demoMatrix ["rare"]).2,
          ((add_slice_labels demoName demoY demoMatrix ["rare"]).store (indTaskName demoName s)).isSome
            ∧ ((add_slice_labels demoName demoY demoMatrix ["rare"]).store (predTaskName demoName s)).isSome :=
  store_frame_only_adds demoY demoMatrix ["rare"] demoName [1, 2, 1] otherKey
    (by decide) (by decide) (by decide)

/-- Claim C1: the predictor label array registered for slice `s` is the
elementwise product of the raw membership column and the base task's labels:
0 where membership is 0, and the base label where membership is 1. -/
theorem predictor_label_product (Y : LabelStore) (m : SliceMatrix) (names : List String)
    (baseName s : String) (labels col : List Int) (i e : Nat) (v : Int)
    (hY : Y baseName = some labels)
    (hlen : m.cols.length = names.length)
    (hnd : (_add_base_slice m names).2.Nodup)
    (hs : (_add_base_slice m names).2[i]? = some s)
    (hcol : (_add_base_slice m names).1.cols[i]? = some col)
    (hv : col[e]? = some v) (hlab : e < labels.length) :
    (add_slice_labels baseName Y m names).store (predTaskName baseName s)
        = some (List.zipWith (fun a b => a * b) col labels)
      ∧ (v = 0 → (List.zipWith (fun a b => a * b) col labels)[e]? = some 0)
      ∧ (v = 1 → (List.zipWith (fun a b => a * b) col labels)[e]? = labels[e]?) := by
  have hsucc := add_slice_labels_success baseName Y m names labels hY hlen
  rw [hsucc]
  have hle : (_add_base_slice m names).2.length
      ≤ (_add_base_slice m names).1.cols.length := by
    have := _add_base_slice_lengths m names
    omega
  have hzip : ((_add_base_slice m names).2.zip
      (_add_base_slice m names).1.cols)[i]? = some (s, col) := by
    rw [List.getElem?_zip_eq_some]
    exact ⟨hs, hcol⟩
  have hmem := List.getElem?_mem hzip
  have hnd2 : (((_add_base_slice m names).2.zip
      (_add_base_slice m names).1.cols).map Prod.fst).Nodup := by
    rw [List.map_fst_zip _ _ hle]
    exact hnd
  have hL : labels[e]? = some labels[e] := List.getElem?_eq_getElem hlab
  refine ⟨writeAll_pred_val baseName labels Y _ s col hmem hnd2, ?_, ?_⟩
  · intro hv0
    subst hv0
    simp [List.getElem?_zipWith, hv, hL]
  · intro hv1
    subst hv1
    simp [List.getElem?_zipWith, hv, hL]

/-- Claim C1 witness: slice "rare" with membership column [1,0,1] over base
labels [1,2,1] gets predictor labels [1,0,1]. -/
theorem predictor_label_product_witness :
    (add_slice_labels demoName demoY demoMatrix ["rare"]).store (predTaskName demoName demoSlice)
        = some (List.zipWith (fun a b => a * b) [1, 0, 1] [1, 2, 1])
      ∧ ((1 : Int) = 0 →
          (List.zipWith (fun a b => a * b) [(1 : Int), 0, 1] [1, 2, 1])[0]? = some 0)
      ∧ ((1 : Int) = 1 →
          (List.zipWith (fun a b => a * b) [(1 : Int), 0, 1] [1, 2, 1])[0]?
            = [(1 : Int), 2, 1][0]?) :=
  predictor_label_product demoY demoMatrix ["rare"] demoName demoSlice [1, 2, 1] [1, 0, 1] 0 0 1
    (by decide) (by decide) (by decide) (by decide) (by decide) (by decide) (by decide)

/-! ### Pool and state lemmas -/
theorem poolGet_poolSet_self (p : Pool) (k : String) (v : NNModule) :
    poolGet (poolSet p k v) k = some v := by
  induction p with
  | nil => simp [poolSet, poolGet]
  | cons h rest ih =>
      obtain ⟨k2, v2⟩ := h
      by_cases hk : k2 = k <;> simp [poolSet, poolGet, hk, ih]

theorem poolGet_poolSet_ne (p : Pool) (k q : String) (v : NNModule) (h : q ≠ k) :
    poolGet (poolSet p k v) q = poolGet p q := by
  induction p with
  | nil =>
      have hkq : ¬ k = q := fun he => h he.symm
      simp [poolSet, poolGet, hkq]
  | cons hd rest ih =>
      obtain ⟨k2, v2⟩ := hd
      by_cases hk : k2 = k
      · subst hk
        have h2 : ¬ k2 = q := fun he => h he.symm
        simp [poolSet, poolGet, h2]
      · simp only [poolSet, if_neg hk, poolGet]
        by_cases hq : k2 = q
        · simp [hq]
        · simp [hq, ih]

theorem poolGet_isSome_poolSet (p : Pool) (k q : String) (v : NNModule)
    (h : (poolGet p q).isSome) : (poolGet (poolSet p k v) q).isSome := by
  by_cases hq : q = k
  · subst hq
    rw [poolGet_poolSet_self]
    rfl
  · rwa [poolGet_poolSet_ne p k q v hq]

theorem poolsGet_poolsSet_self (ps : List (Nat × Pool)) (r : Nat) (p : Pool) :
    poolsGet (poolsSet ps r p) r = p := by
  induction ps with
  | nil => simp [poolsSet, poolsGet]
  | cons h rest ih =>
      obtain ⟨r2, p2⟩ := h
      by_cases hr : r2 = r <;> simp [poolsSet, poolsGet, hr, ih]

theorem poolsGet_poolsSet_ne (ps : List (Nat × Pool)) (r q : Nat) (p : Pool)
    (h : q ≠ r) : poolsGet (poolsSet ps r p) q = poolsGet ps q := by
  induction ps with
  | nil =>
      have hrq : ¬ r = q := fun he => h he.symm
      simp [poolsSet, poolsGet, hrq]
  | cons hd rest ih =>
      obtain ⟨r2, p2⟩ := hd
      by_cases hr : r2 = r
      · subst hr
        have h2 : ¬ r2 = q := fun he => h he.symm
        simp [poolsSet, poolsGet, h2]
      · simp only [poolsSet, if_neg hr, poolsGet]
        by_cases hq : r2 = q
        · simp [hq]
        · simp [hq, ih]

theorem getPool_setPool_self (st : GState) (r : Nat) (p : Pool) :
    getPool (setPool st r p) r = p :=
  poolsGet_poolsSet_self st.pools r p

theorem getPool_setPool_ne (st : GState) (r q : Nat) (p : Pool) (h : q ≠ r) :
    getPool (setPool st r p) q = getPool st q :=
  poolsGet_poolsSet_ne st.pools r q p h

/-! ### Indicator-task loop lemmas -/
theorem mkIndTasks_names (b : String) (r : Nat) (fl : List Operation)
    (ins : List (String × Nat)) (neck : Nat) (names : List String) (st : GState) :
    (mkIndTasks b r fl ins neck names st).1.map Task.name = names.map (indTaskName b) := by
  induction names generalizing st with
  | nil => rfl
  | cons s rest ih => simp [mkIndTasks, ih]

theorem mkIndTasks_flowLens (b : String) (r : Nat) (fl : List Operation)
    (ins : List (String × Nat)) (neck : Nat) (names : List String) (st : GState) :
    (mkIndTasks b r fl ins neck names st).1.map (fun t => t.task_flow.length)
      = List.replicate names.length (fl.length + 1) := by
  induction names generalizing st with
  | nil => rfl
  | cons s rest ih => simp [mkIndTasks, ih, List.replicate_succ]

theorem mkIndTasks_poolRef_mem (b : String) (r : Nat) (fl : List Operation)
    (ins : List (String × Nat)) (neck : Nat) (names : List String) (st : GState) :
    ∀ t ∈ (mkIndTasks b r fl ins neck names st).1, t.poolRef = r := by
  induction names generalizing st with
  | nil => intro t ht; simp [mkIndTasks] at ht
  | cons s rest ih =>
      intro t ht
      simp only [mkIndTasks, List.mem_cons] at ht
      rcases ht with ht | ht
      · rw [ht]
      · exact ih _ t ht

theorem mkIndTasks_ops_length (b : String) (r : Nat) (fl : List Operation)
    (ins : List (String × Nat)) (neck : Nat) (names : List String) (st : GState) :
    (mkIndTasks b r fl ins neck names st).2.1.length = names.length := by
  induction names generalizing st with
  | nil => rfl
  | cons s rest ih => simp [mkIndTasks, ih]

theorem mkIndTasks_nextPoolRef (b : String) (r : Nat) (fl : List Operation)
    (ins : List (String × Nat)) (neck : Nat) (names : List String) (st : GState) :
    (mkIndTasks b r fl ins neck names st).2.2.nextPoolRef = st.nextPoolRef := by
  induction names generalizing st with
  | nil => rfl
  | cons s rest ih => simp [mkIndTasks, ih, setPool, allocLinear]

theorem mkIndTasks_isSome_mono (b : String) (r : Nat) (fl : List Operation)
    (ins : List (String × Nat)) (neck : Nat) (names : List String) (st : GState)
    (k : String) (h : (poolGet (getPool st r) k).isSome) :
    (poolGet (getPool (mkIndTasks b r fl ins neck names st).2.2 r) k).isSome := by
  induction names generalizing st with
  | nil => exact h
  | cons s rest ih =>
      simp only [mkIndTasks]
      apply ih
      rw [getPool_setPool_self]
      exact poolGet_isSome_poolSet _ _ _ _ h

theorem mkIndTasks_indHead_isSome (b : String) (r : Nat) (fl : List Operation)
    (ins : List (String × Nat)) (neck : Nat) (names : List String) (st : GState)
    (s : String) (hs : s ∈ names) :
    (poolGet (getPool (mkIndTasks b r fl ins neck names st).2.2 r) (indHeadName b s)).isSome := by
  induction names generalizing st with
  | nil => simp at hs
  | cons t rest ih =>
      simp only [mkIndTasks]
      rcases List.mem_cons.mp hs with he | hm
      · subst he
        apply mkIndTasks_isSome_mono
        rw [getPool_setPool_self, poolGet_poolSet_self]
        rfl
      · exact ih _ hm

/-! ### Predictor-task loop lemmas -/
theorem mkPredTasks_names (b : String) (r : Nat) (fl : List Operation)
    (ins : List (String × Nat)) (neck : Nat) (sh : NNModule) (sc : Scorer)
    (names : List String) (st : GState) :
    (mkPredTasks b r fl ins neck sh sc names st).1.map Task.name
      = names.map (predTaskName b) := by
  induction names generalizing st with
  | nil => rfl
  | cons s rest ih => simp [mkPredTasks, ih]

theorem mkPredTasks_flowLens (b : String) (r : Nat) (fl : List Operation)
    (ins : List (String × Nat)) (neck : Nat) (sh : NNModule) (sc : Scorer)
    (names : List String) (st : GState) :
    (mkPredTasks b r fl ins neck sh sc names st).1.map (fun t => t.task_flow.length)
      = List.replicate names.length (fl.length + 2) := by
  induction names generalizing st with
  | nil => rfl
  | cons s rest ih => simp [mkPredTasks, ih, List.replicate_succ]

theorem mkPredTasks_poolRef_mem (b : String) (r : Nat) (fl : List Operation)
    (ins : List (String × Nat)) (neck : Nat) (sh : NNModule) (sc : Scorer)
    (names : List String) (st : GState) :
    ∀ t ∈ (mkPredTasks b r fl ins neck sh sc names st).1, t.poolRef = r := by
  induction names generalizing st with
  | nil => intro t ht; simp [mkPredTasks] at ht
  | cons s rest ih =>
      intro t ht
      simp only [mkPredTasks, List.mem_cons] at ht
      rcases ht with ht | ht
      · rw [ht]
      · exact ih _ t ht

theorem mkPredTasks_ops_length (b : String) (r : Nat) (fl : List Operation)
    (ins : List (String × Nat)) (neck : Nat) (sh : NNModule) (sc : Scorer)
    (names : List String) (st : GState) :
    (mkPredTasks b r fl ins neck sh sc names st).2.1.length = 2 * names.length := by
  induction names generalizing st with
  | nil => rfl
  | cons s rest ih =>
      simp only [mkPredTasks, List.length_cons, ih]
      omega

theorem mkPredTasks_nextPoolRef (b : String) (r : Nat) (fl : List Operation)
    (ins : List (String × Nat)) (neck : Nat) (sh : NNModule) (sc : Scorer)
    (names : List String) (st : GState) :
    (mkPredTasks b r fl ins neck sh sc names st).2.2.nextPoolRef = st.nextPoolRef := by
  induction names generalizing st with
  | nil => rfl
  | cons s rest ih => simp [mkPredTasks, ih, setPool, allocLinear]

theorem mkPredTasks_isSome_mono (b : String) (r : Nat) (fl : List Operation)
    (ins : List (String × Nat)) (neck : Nat) (sh : NNModule) (sc : Scorer)
    (names : List String) (st : GState) (k : String)
    (h : (poolGet (getPool st r) k).isSome) :
    (poolGet (getPool (mkPredTasks b r fl ins neck sh sc names st).2.2 r) k).isSome := by
  induction names generalizing st with
  | nil => exact h
  | cons s rest ih =>
      simp only [mkPredTasks]
      apply ih
      rw [getPool_setPool_self]
      exact poolGet_isSome_poolSet _ _ _ _ (poolGet_isSome_poolSet _ _ _ _ h)

theorem mkPredTasks_transform_isSome (b : String) (r : Nat) (fl : List Operation)
    (ins : List (String × Nat)) (neck : Nat) (sh : NNModule) (sc : Scorer)
    (names : List String) (st : GState) (s : String) (hs : s ∈ names) :
    (poolGet (getPool (mkPredTasks b r fl ins neck sh sc names st).2.2 r)
      (predTransformName b s)).isSome := by
  induction names generalizing st with
  | nil => simp at hs
  | cons t rest ih =>
      simp only [mkPredTasks]
      rcases List.mem_cons.mp hs with he | hm
      · subst he
        apply mkPredTasks_isSome_mono
        rw [getPool_setPool_self]
        apply poolGet_isSome_poolSet
        rw [poolGet_poolSet_self]
        rfl
      · exact ih _ hm

theorem mkPredTasks_predHead_shared (b : String) (r : Nat) (fl : List Operation)
    (ins : List (String × Nat)) (neck : Nat) (sh : NNModule) (sc : Scorer)
    (names : List String) (st : GState) (s : String)
    (h : s ∈ names ∨ poolGet (getPool st r) (predHeadName b s) = some sh) :
    poolGet (getPool (mkPredTasks b r fl ins neck sh sc names st).2.2 r)
      (predHeadName b s) = some sh := by
  induction names generalizing st with
  | nil =>
      rcases h with h | h
      · simp at h
      · exact h
  | cons t rest ih =>
      simp only [mkPredTasks]
      by_cases hst : s = t
      · subst hst
        apply ih
        right
        rw [getPool_setPool_self, poolGet_poolSet_self]
      · rcases h with h | h
        · rcases List.mem_cons.mp h with he | hm
          · exact absurd he hst
          · exact ih _ (Or.inl hm)
        · apply ih
          right
          rw [getPool_setPool_self]
          have hne : predHeadName b s ≠ predHeadName b t := fun hc => hst (predHeadName_inj hc)
          rw [poolGet_poolSet_ne _ _ _ _ hne,
            poolGet_poolSet_ne _ _ _ _ (predHeadName_ne_predTransformName b b s t)]
          exact h

theorem convert_eq_some (st : GState) (base : Task) (names : List String)
    (out : List Task × GState)
    (h : convert_to_slice_tasks st base names = some out) :
    ∃ hop raw,
      base.task_flow.getLast? = some hop
      ∧ poolGet (getPool st base.poolRef) hop.module_name = some raw
      ∧ ∃ neck card,
          raw.unwrapDataParallel.in_features = some neck
          ∧ raw.unwrapDataParallel.out_features = some card
          ∧ out = convertCore st base (addBase names) hop raw.unwrapDataParallel neck card := by
  unfold convert_to_slice_tasks at h
  split at h
  · exact absurd h (by simp)
  · split at h
    · exact absurd h (by simp)
    · dsimp only at h
      split at h
      · rename_i x3 hop hlast x2 raw hraw x1 x0 neck card hin hout
        exact ⟨hop, raw, hlast, hraw, neck, card, hin, hout, (Option.some.inj h).symm⟩
      · exact absurd h (by simp)

theorem mkIndTasks_tasks_length (b : String) (r : Nat) (fl : List Operation)
    (ins : List (String × Nat)) (neck : Nat) (names : List String) (st : GState) :
    (mkIndTasks b r fl ins neck names st).1.length = names.length := by
  have hc := congrArg List.length (mkIndTasks_names b r fl ins neck names st)
  simpa using hc

theorem mkPredTasks_tasks_length (b : String) (r : Nat) (fl : List Operation)
    (ins : List (String × Nat)) (neck : Nat) (sh : NNModule) (sc : Scorer)
    (names : List String) (st : GState) :
    (mkPredTasks b r fl ins neck sh sc names st).1.length = names.length := by
  have hc := congrArg List.length (mkPredTasks_names b r fl ins neck sh sc names st)
  simpa using hc

theorem allocLinear_nextPoolRef (st : GState) (a b : Nat) :
    (allocLinear st a b).2.nextPoolRef = st.nextPoolRef := rfl

theorem allocCombiner_nextPoolRef (st : GState) :
    (allocCombiner st).2.nextPoolRef = st.nextPoolRef := rfl

theorem setPool_nextPoolRef (st : GState) (r : Nat) (p : Pool) :
    (setPool st r p).nextPoolRef = st.nextPoolRef := rfl

theorem allocPool_fst (st : GState) (p : Pool) : (allocPool st p).1 = st.nextPoolRef := rfl

theorem getPool_allocLinear (st : GState) (a b r : Nat) :
    getPool (allocLinear st a b).2 r = getPool st r := rfl

theorem getPool_allocCombiner (st : GState) (r : Nat) :
    getPool (allocCombiner st).2 r = getPool st r := rfl

theorem getPool_allocPool_self (st : GState) (p : Pool) :
    getPool (allocPool st p).2 (allocPool st p).1 = p :=
  poolsGet_poolsSet_self st.pools st.nextPoolRef p

theorem getPool_allocPool_ne (st : GState) (p : Pool) (r : Nat)
    (h : r ≠ st.nextPoolRef) : getPool (allocPool st p).2 r = getPool st r :=
  poolsGet_poolsSet_ne st.pools st.nextPoolRef r p h

/-! ## Claims about the Task Graph Expander -/
/-- Claim C4: the expander returns exactly 2·N+1 tasks, ordered as the N
indicator tasks, then the N predictor tasks, then the single master task
(named after the base task), in slice-iteration order within each group. -/
theorem task_list_shape (st : GState) (base : Task) (names : List String)
    (tasks : List Task) (st' : GState)
    (h : convert_to_slice_tasks st base names = some (tasks, st')) :
    tasks.map Task.name
        = (addBase names).map (indTaskName base.name)
          ++ (addBase names).map (predTaskName base.name)
          ++ [base.name]
      ∧ tasks.length = 2 * (addBase names).length + 1 := by
  obtain ⟨hop, raw, hlast, hraw, neck, card, hin, hout, heq⟩ :=
    convert_eq_some st base names (tasks, st') h
  have ht : tasks
      = (convertCore st base (addBase names) hop raw.unwrapDataParallel neck card).1 :=
    congrArg Prod.fst heq
  constructor
  · rw [ht]
    simp only [convertCore]
    rw [List.map_append, List.map_append, mkIndTasks_names, mkPredTasks_names]
    rfl
  · rw [ht]
    simp only [convertCore]
    simp [mkIndTasks_tasks_length, mkPredTasks_tasks_length]
    omega

/-- Claim C4 witness. -/
theorem task_list_shape_witness :
    demoTasks.map Task.name
        = (addBase ["rare"]).map (indTaskName demoTask.name)
          ++ (addBase ["rare"]).map (predTaskName demoTask.name)
          ++ [demoTask.name]
      ∧ demoTasks.length = 2 * (addBase ["rare"]).length + 1 :=
  task_list_shape demoSt demoTask ["rare"] demoTasks demoSt2 (by rfl)

/-- Claim C3 counterexample: for a base task with flow length L = 2 and N = 2
base-inclusive slice names, the master task's flow length is 9, not
(L-1) + 2·N + 2 = 7: each predictor task contributes two operations (transform
and head) to the master flow, so the correct count is (L-1) + 3·N + 2. -/
theorem flow_length_claim_counterexample :
    (demoTasks.getLastD dummyTask).task_flow.length
      ≠ (demoTask.task_flow.length - 1) + 2 * (addBase ["rare"]).length + 2 := by
  decide

/-- Claim C3 (amended): indicator tasks have flow length L, predictor tasks
L+1, and the master task (L-1) + 3·N + 2, where L is the base flow length and
N the number of base-inclusive slice names (the indicator operations
contribute N entries and the predictor operations 2·N entries to the master
flow). -/
theorem flow_lengths (st : GState) (base : Task) (names : List String)
    (tasks : List Task) (st' : GState)
    (h : convert_to_slice_tasks st base names = some (tasks, st')) :
    tasks.map (fun t => t.task_flow.length)
      = List.replicate (addBase names).length base.task_flow.length
        ++ List.replicate (addBase names).length (base.task_flow.length + 1)
        ++ [base.task_flow.length - 1 + 3 * (addBase names).length + 2] := by
  obtain ⟨hop, raw, hlast, hraw, neck, card, hin, hout, heq⟩ :=
    convert_eq_some st base names (tasks, st') h
  have ht : tasks
      = (convertCore st base (addBase names) hop raw.unwrapDataParallel neck card).1 :=
    congrArg Prod.fst heq
  have hnil : base.task_flow ≠ [] := by
    intro hn
    rw [hn] at hlast
    exact absurd hlast (by simp)
  have hpos : 1 ≤ base.task_flow.length := by
    cases hf : base.task_flow with
    | nil => exact absurd hf hnil
    | cons a l => simp [hf]
  have hbl : base.task_flow.dropLast.length = base.task_flow.length - 1 :=
    List.length_dropLast base.task_flow
  rw [ht]
  simp only [convertCore]
  rw [List.map_append, List.map_append, mkIndTasks_flowLens, mkPredTasks_flowLens]
  rw [List.map_singleton]
  simp only [List.length_append, mkIndTasks_ops_length, mkPredTasks_ops_length,
    List.length_cons, List.length_nil, hbl]
  have e1 : base.task_flow.length - 1 + 1 = base.task_flow.length := by omega
  have e2 : base.task_flow.length - 1 + 2 = base.task_flow.length + 1 := by omega
  have e3 : base.task_flow.length - 1
        + ((addBase names).length + 2 * (addBase names).length)
        + (0 + 1 + 1)
      = base.task_flow.length - 1 + 3 * (addBase names).length + 2 := by omega
  rw [e1, e2, e3]

/-- Claim C3 (amended) witness. -/
theorem flow_lengths_witness :
    demoTasks.map (fun t => t.task_flow.length)
      = List.replicate (addBase ["rare"]).length demoTask.task_flow.length
        ++ List.replicate (addBase ["rare"]).length (demoTask.task_flow.length + 1)
        ++ [demoTask.task_flow.length - 1 + 3 * (addBase ["rare"]).length + 2] :=
  flow_lengths demoSt demoTask ["rare"] demoTasks demoSt2 (by rfl)

/-- Claim C7 counterexample: the master task does not share the base task's
module pool object; the source builds it a fresh `nn.ModuleDict` (line 195),
so its pool reference differs from the base task's. -/
theorem master_pool_ref_counterexample :
    (demoTasks.getLastD dummyTask).poolRef ≠ demoTask.poolRef := by
  decide

/-- Claim C7 (amended): every indicator and predictor task holds a reference
to the same module pool object as the base task (so modules inserted for one
task are visible while constructing the next and stay visible in tasks that
never use them), while the master task receives a fresh pool; after the run
the shared pool holds every slice-specific module. -/
theorem pool_aliasing (st : GState) (base : Task) (names : List String)
    (tasks : List Task) (st' : GState)
    (h : convert_to_slice_tasks st base names = some (tasks, st'))
    (hwf : base.poolRef < st.nextPoolRef) :
    (∀ t ∈ tasks.dropLast, t.poolRef = base.poolRef)
      ∧ (∃ master, tasks.getLast? = some master ∧ master.poolRef ≠ base.poolRef)
      ∧ ∀ s ∈ addBase names,
          (poolGet (getPool st' base.poolRef) (indHeadName base.name s)).isSome
            ∧ (poolGet (getPool st' base.poolRef) (predTransformName base.name s)).isSome
            ∧ (poolGet (getPool st' base.poolRef) (predHeadName base.name s)).isSome := by
  obtain ⟨hop, raw, hlast, hraw, neck, card, hin, hout, heq⟩ :=
    convert_eq_some st base names (tasks, st') h
  have ht : tasks
      = (convertCore st base (addBase names) hop raw.unwrapDataParallel neck card).1 :=
    congrArg Prod.fst heq
  have hst : st'
      = (convertCore st base (addBase names) hop raw.unwrapDataParallel neck card).2 :=
    congrArg Prod.snd heq
  have hne : base.poolRef ≠ st.nextPoolRef := Nat.ne_of_lt hwf
  refine ⟨?_, ?_, ?_⟩
  · rw [ht]
    simp only [convertCore]
    rw [← List.append_assoc, List.dropLast_concat]
    intro t htm
    rcases List.mem_append.mp htm with hm | hm
    · exact mkIndTasks_poolRef_mem _ _ _ _ _ _ _ t hm
    · exact mkPredTasks_poolRef_mem _ _ _ _ _ _ _ _ _ t hm
  · rw [ht]
    simp only [convertCore]
    rw [← List.append_assoc]
    refine ⟨_, List.getLast?_concat _, ?_⟩
    simp only [allocPool_fst, allocCombiner_nextPoolRef, mkPredTasks_nextPoolRef,
      allocLinear_nextPoolRef, mkIndTasks_nextPoolRef, setPool_nextPoolRef]
    exact fun hc => hne hc.symm
  · intro s hs
    rw [hst]
    simp only [convertCore]
    rw [getPool_allocPool_ne]
    · rw [getPool_allocCombiner]
      refine ⟨?_, ?_, ?_⟩
      · apply mkPredTasks_isSome_mono
        rw [getPool_allocLinear]
        exact mkIndTasks_indHead_isSome _ _ _ _ _ _ _ s hs
      · exact mkPredTasks_transform_isSome _ _ _ _ _ _ _ _ _ s hs
      · rw [mkPredTasks_predHead_shared _ _ _ _ _ _ _ _ _ s (Or.inl hs)]
        rfl
    · simp only [allocCombiner_nextPoolRef, mkPredTasks_nextPoolRef,
        allocLinear_nextPoolRef, mkIndTasks_nextPoolRef, setPool_nextPoolRef]
      exact hne

/-- Claim C7 (amended) witness. -/
theorem pool_aliasing_witness :
    (∀ t ∈ demoTasks.dropLast, t.poolRef = demoTask.poolRef)
      ∧ (∃ master, demoTasks.getLast? = some master ∧ master.poolRef ≠ demoTask.poolRef)
      ∧ ∀ s ∈ addBase ["rare"],
          (poolGet (getPool demoSt2 demoTask.poolRef) (indHeadName demoTask.name s)).isSome
            ∧ (poolGet (getPool demoSt2 demoTask.poolRef) (predTransformName demoTask.name s)).isSome
            ∧ (poolGet (getPool demoSt2 demoTask.poolRef) (predHeadName demoTask.name s)).isSome :=
  pool_aliasing demoSt demoTask ["rare"] demoTasks demoSt2 (by rfl) (by decide)

/-- Claim C5: one single shared predictor head module (one allocation, one
identity) is the module stored under every predictor head key of the shared
pool, which is the pool every predictor task references; the head is not
duplicated per slice. -/
theorem shared_pred_head_identity (st : GState) (base : Task) (names : List String)
    (tasks : List Task) (st' : GState)
    (h : convert_to_slice_tasks st base names = some (tasks, st'))
    (hwf : base.poolRef < st.nextPoolRef) :
    ∃ m : NNModule,
      (∀ t ∈ (tasks.drop (addBase names).length).dropLast, t.poolRef = base.poolRef)
        ∧ ∀ s ∈ addBase names,
            poolGet (getPool st' base.poolRef) (predHeadName base.name s) = some m := by
  obtain ⟨hop, raw, hlast, hraw, neck, card, hin, hout, heq⟩ :=
    convert_eq_some st base names (tasks, st') h
  have ht : tasks
      = (convertCore st base (addBase names) hop raw.unwrapDataParallel neck card).1 :=
    congrArg Prod.fst heq
  have hst : st'
      = (convertCore st base (addBase names) hop raw.unwrapDataParallel neck card).2 :=
    congrArg Prod.snd heq
  have hne : base.poolRef ≠ st.nextPoolRef := Nat.ne_of_lt hwf
  refine ⟨(allocLinear (mkIndTasks base.name base.poolRef base.task_flow.dropLast
    hop.inputs neck (addBase names)
    (setPool st base.poolRef (poolDel (getPool st base.poolRef) hop.module_name))).2.2
    neck card).1, ?_, ?_⟩
  case refine_1 =>
    rw [ht]
    simp only [convertCore]
    intro t htm
    rw [← mkIndTasks_tasks_length base.name base.poolRef base.task_flow.dropLast
      hop.inputs neck (addBase names)
      (setPool st base.poolRef (poolDel (getPool st base.poolRef) hop.module_name))] at htm
    rw [List.append_assoc, List.drop_left, List.dropLast_concat] at htm
    exact mkPredTasks_poolRef_mem _ _ _ _ _ _ _ _ _ t htm
  case refine_2 =>
    intro s hs
    rw [hst]
    simp only [convertCore]
    rw [getPool_allocPool_ne]
    · rw [getPool_allocCombiner]
      exact mkPredTasks_predHead_shared _ _ _ _ _ _ _ _ _ s (Or.inl hs)
    · simp only [allocCombiner_nextPoolRef, mkPredTasks_nextPoolRef,
        allocLinear_nextPoolRef, mkIndTasks_nextPoolRef, setPool_nextPoolRef]
      exact hne

/-- Claim C5 witness. -/
theorem shared_pred_head_identity_witness :
    ∃ m : NNModule,
      (∀ t ∈ (demoTasks.drop (addBase ["rare"]).length).dropLast, t.poolRef = demoTask.poolRef)
        ∧ ∀ s ∈ addBase ["rare"],
            poolGet (getPool demoSt2 demoTask.poolRef) (predHeadName demoTask.name s) = some m :=
  shared_pred_head_identity demoSt demoTask ["rare"] demoTasks demoSt2 (by rfl) (by decide)

/-- Claim C6 counterexample: with a replication-wrapped (`nn.DataParallel`)
head module, the master pool's head entry is the unwrapped inner module, not
the module as it appeared in the base pool — the wrapped form is not
preserved as-is (line 108 rebinds `head_module` to the inner module before
line 192 reuses it). -/
theorem master_pool_wrapped_counterexample :
    poolGet (getPool demoWSt demoTask.poolRef) "h"
        = some (NNModule.dataParallel 9 (NNModule.linear 7 8 3))
      ∧ poolGet (getPool demoWSt2 (demoWTasks.getLastD dummyTask).poolRef)
          (demoTask.name ++ "_master_head")
        = some (NNModule.linear 7 8 3)
      ∧ poolGet (getPool demoWSt2 (demoWTasks.getLastD dummyTask).poolRef)
          (demoTask.name ++ "_master_head")
        ≠ poolGet (getPool demoWSt demoTask.poolRef) "h" := by
  decide

/-- Claim C6 (amended): the master task's module pool contains exactly two
entries — the combiner module and the original head module — with no body
modules; the head module is reused (the same module value, not a fresh
allocation), stored in unwrapped form: the replication wrapper, when present,
is stripped. -/
theorem master_pool_exactly_two (st : GState) (base : Task) (names : List String)
    (tasks : List Task) (st' : GState) (hop : Operation) (raw : NNModule)
    (h : convert_to_slice_tasks st base names = some (tasks, st'))
    (hlast : base.task_flow.getLast? = some hop)
    (hraw : poolGet (getPool st base.poolRef) hop.module_name = some raw) :
    ∃ master c, tasks.getLast? = some master
      ∧ getPool st' master.poolRef
          = [(base.name ++ "_master_combiner", NNModule.combiner c),
             (base.name ++ "_master_head", raw.unwrapDataParallel)] := by
  obtain ⟨hop2, raw2, hlast2, hraw2, neck, card, hin, hout, heq⟩ :=
    convert_eq_some st base names (tasks, st') h
  have hope : hop2 = hop := Option.some.inj (hlast2.symm.trans hlast)
  subst hope
  have hrawe : raw2 = raw := Option.some.inj (hraw2.symm.trans hraw)
  subst hrawe
  have ht : tasks
      = (convertCore st base (addBase names) hop2 raw2.unwrapDataParallel neck card).1 :=
    congrArg Prod.fst heq
  have hst : st'
      = (convertCore st base (addBase names) hop2 raw2.unwrapDataParallel neck card).2 :=
    congrArg Prod.snd heq
  exact ⟨_, _, by
      rw [ht]
      simp only [convertCore]
      exact List.getLast?_concat _,
    by
      rw [hst]
      simp only [convertCore]
      exact getPool_allocPool_self _ _⟩

/-- Claim C6 (amended) witness: run on the wrapped-head input. -/
theorem master_pool_exactly_two_witness :
    ∃ master c, demoWTasks.getLast? = some master
      ∧ getPool demoWSt2 master.poolRef
          = [(demoTask.name ++ "_master_combiner", NNModule.combiner c),
             (demoTask.name ++ "_master_head",
               (NNModule.dataParallel 9 (NNModule.linear 7 8 3)).unwrapDataParallel)] :=
  master_pool_exactly_two demoWSt demoTask ["rare"] demoWTasks demoWSt2
    (mkOperation ("h") [("body", 0)]) (NNModule.dataParallel 9 (NNModule.linear 7 8 3))
    (by rfl) (by rfl) (by rfl)

end SnorkelSlicing

